import Mathlib

/-!
Verification of the opynions opinion-dynamics engine.

Shallow embedding of src/opynions/core/simulation.py and
src/opynions/analysis/multiprocessing.py.  Python floats are modelled by
rationals; a Python assertion failure or other raised exception is modelled
by Option/Except.  Randomness (node shuffling, neighbor choice, rewiring
draws) is modelled by quantifying over the drawn values: every concrete run
of the Python code corresponds to one choice of the event parameters below,
so properties proved for all events hold for every run.
-/

namespace Opynions

/-- Periodic boundary classifier, from simulation.py rho.  The leading guard
models the assert on the bounds; each branch mirrors one of the three
sequential return statements; the final none corresponds to Python falling
off the end of the function (unreachable for in-bounds input). -/
def rho (x : ℚ) : Option ℤ :=
  if ¬ (-1 ≤ x ∧ x ≤ 1) then none
  else if -1 ≤ x ∧ x < -(1/2) then some (-1)
  else if -(1/2) ≤ x ∧ x ≤ 1/2 then some 0
  else if (1/2 : ℚ) < x ∧ x ≤ 1 then some 1
  else none

/-- The clamp max(0, min(1, x)) applied in the repulsion branch of
UCM_adjust_opinion. -/
def clamp01 (x : ℚ) : ℚ := max 0 (min 1 x)

/-- Opinion adjustment rule, from simulation.py UCM_adjust_opinion.  The two
leading guards model the asserts on i and j; the Python locals i_min_j,
alt_dist, j_min_i are inlined; the two complementary Python if statements on
abs_alt_dist are rendered as a single if/else. -/
def UCM_adjust_opinion (i j mu epsilon : ℚ) : Option (ℚ × ℚ) :=
  if ¬ (0 ≤ i ∧ i ≤ 1) then none
  else if ¬ (0 ≤ j ∧ j ≤ 1) then none
  else
    match rho (i - j) with
    | none => none
    | some r =>
      if |i - j - (r : ℚ)| < epsilon then
        some (i + mu * (j - i), j + mu * (i - j))
      else
        match rho (j - i) with
        | none => none
        | some r2 =>
          some (clamp01 (i - mu * ((j - i) - (r2 : ℚ))),
                clamp01 (j - mu * (i - j - (r : ℚ))))

/-- Undirected graph state: node ids, undirected edges stored as ordered
pairs normalized so the smaller endpoint comes first, and a per-node opinion
attribute.  This mirrors the networkx graph used by simulation.py. -/
structure SimGraph where
  nodes : Finset ℕ
  edges : Finset (ℕ × ℕ)
  opinions : ℕ → ℚ

/-- Normalized key of the undirected edge between u and v. -/
def edgeKey (u v : ℕ) : ℕ × ℕ := if u ≤ v then (u, v) else (v, u)

/-- networkx add_edge: inserts the edge and any missing endpoint node. -/
def add_edge (g : SimGraph) (u v : ℕ) : SimGraph :=
  { g with nodes := insert u (insert v g.nodes),
           edges := insert (edgeKey u v) g.edges }

/-- networkx remove_edge, at call sites where the edge is present. -/
def remove_edge (g : SimGraph) (u v : ℕ) : SimGraph :=
  { g with edges := g.edges.erase (edgeKey u v) }

/-- Assignment g.nodes[u][opinion] = x. -/
def set_opinion (g : SimGraph) (u : ℕ) (x : ℚ) : SimGraph :=
  { g with opinions := Function.update g.opinions u x }

/-- The list list(g.nodes()), in a canonical order. -/
def nodeList (g : SimGraph) : List ℕ := g.nodes.sort (· ≤ ·)

/-- The list list(g.neighbors(u)), in a canonical order: the nodes joined to
u by an edge. -/
def neighborList (g : SimGraph) (u : ℕ) : List ℕ :=
  (g.nodes.filter (fun v => edgeKey u v ∈ g.edges)).sort (· ≤ ·)

/-- The random draws consumed while processing one node inside a sweep:
the node itself (as produced by the shuffled node order), the index of the
uniformly chosen neighbor, and the successive draws of the rewiring loop. -/
structure NodeEvent where
  node : ℕ
  nbrIdx : ℕ
  tape : List ℕ

/-- The rewiring draw loop of run_sim: new_neighbor = random.choice of the
node list, redrawn while it equals the node itself.  Each tape entry is one
draw, taken modulo the list length; none models a tape too short to leave
the loop (the Python loop just keeps drawing). -/
def pickNewNeighbor (l : List ℕ) (node : ℕ) : List ℕ → Option ℕ
  | [] => none
  | k :: rest =>
    match l[k % l.length]? with
    | none => none
    | some w => if w = node then pickNewNeighbor l node rest else some w

/-- Body of the inner loop of run_sim for one node: skip if the node has no
neighbors, otherwise pick a neighbor, adjust both opinions in place, and
rewire when the updated opinions differ by more than epsilon. -/
def processNode (mu epsilon : ℚ) (g : SimGraph) (ev : NodeEvent) :
    Option SimGraph :=
  let nbrs := neighborList g ev.node
  match nbrs[ev.nbrIdx % nbrs.length]? with
  | none => some g
  | some neighbor =>
    match UCM_adjust_opinion (g.opinions ev.node) (g.opinions neighbor)
        mu epsilon with
    | none => none
    | some (i_new, j_new) =>
      let g1 := set_opinion (set_opinion g ev.node i_new) neighbor j_new
      if |i_new - j_new| > epsilon then
        match pickNewNeighbor (nodeList g1) ev.node ev.tape with
        | none => none
        | some w => some (add_edge (remove_edge g1 ev.node neighbor) ev.node w)
      else
        some g1

/-- The T sweeps of run_sim, flattened: the event list is the concatenation
of the shuffled node orders of all T time steps together with the random
indices drawn for each node. -/
def run_sweeps (mu epsilon : ℚ) (g0 : SimGraph) (evs : List NodeEvent) :
    Option SimGraph :=
  evs.foldlM (processNode mu epsilon) g0

/-- A Python number as received by run_sim: an int or a float. -/
inductive PyNum where
  | int : ℤ → PyNum
  | float : ℚ → PyNum

/-- Numeric value of a PyNum. -/
def PyNum.toRat : PyNum → ℚ
  | .int n => (n : ℚ)
  | .float _q => _q

/-- The Python isinstance(x, int) test. -/
def PyNum.isInt : PyNum → Bool
  | .int _ => true
  | .float _ => false

/-- The four asserts guarding run_sim, exactly as written in the source.
Python operator precedence parses the condition
N > 1 & isinstance(N, int) as N > (1 & isinstance(N, int)), where the
bitwise-and of 1 with a bool gives 1 or 0; likewise for T.  The mu and
epsilon asserts are ordinary chained comparisons. -/
def runSimValidation (N T : PyNum) (mu epsilon : ℚ) : Bool :=
  decide (((1 &&& (if N.isInt then 1 else 0) : ℕ) : ℚ) < N.toRat) &&
  decide (((1 &&& (if T.isInt then 1 else 0) : ℕ) : ℚ) < T.toRat) &&
  (decide (0 ≤ mu) && decide (mu ≤ 1)) &&
  (decide (0 ≤ epsilon) && decide (epsilon ≤ 1))

/-- run_sim from simulation.py.  Graph creation (initialize_graph, i.e. the
external barabasi_albert_graph generator plus uniformly random opinions) is
an external collaborator, so the freshly initialized graph g0 is a
parameter, as are the random draws evs of the T sweeps.  The snapshot
g_init = g.copy() is the value g0; the sweeps thread the working graph
through processNode. -/
def run_sim (N T : PyNum) (epsilon mu : ℚ) (g0 : SimGraph)
    (evs : List NodeEvent) : Option (SimGraph × SimGraph) :=
  if runSimValidation N T mu epsilon then
    match run_sweeps mu epsilon g0 evs with
    | none => none
    | some gfin => some (gfin, g0)
  else
    none

/-- Concrete graph of the spec scenario: path 0-1-2-3 with opinions
[0.1, 0.9, 0.5, 0.5]. -/
def pathGraph4 : SimGraph :=
  { nodes := Finset.range 4,
    edges := {(0, 1), (1, 2), (2, 3)},
    opinions := fun n => if n = 0 then 1/10 else if n = 1 then 9/10 else 1/2 }

/-- Result of one concrete rewiring run on the scenario graph with mu = 0
and epsilon = 1/10: node 0 repels neighbor 1, opinions unchanged, and the
edge (0, 1) is rewired to (0, 2) after the draw tape [0, 2] first produces
the node itself and is redrawn. -/
def rewiredGraph : SimGraph :=
  add_edge
    (remove_edge (set_opinion (set_opinion pathGraph4 0 (1/10)) 1 (9/10))
      0 1)
    0 2

/-- The bookkeeping invariant of the engine graph: every stored edge joins
two distinct node ids that are both in the node set. -/
def goodEdges (g : SimGraph) : Prop :=
  ∀ e ∈ g.edges, e.1 ∈ g.nodes ∧ e.2 ∈ g.nodes ∧ e.1 ≠ e.2

/-- Cross product of two value lists in the order produced by
itertools.product. -/
def itertools_product {α β : Type} (xs : List α) (ys : List β) :
    List (α × β) :=
  xs.flatMap (fun x => ys.map (fun y => (x, y)))

/-- One record of a sweep result: the fields contributed by the analysis
collaborator plus the epsilon and mu keys added by the worker. -/
structure ResultRecord (D : Type) where
  data : D
  epsilon : ℚ
  mu : ℚ

/-- Did an Except computation fail. -/
def failed {E A : Type} : Except E A → Bool
  | .error _ => true
  | .ok _ => false

/-- worker_all_both_params from multiprocessing.py: runs the combined
analysis for one parameter point and stamps the epsilon and mu keys onto
the returned record.  combined_analysis lives in opynions.analysis.combined,
outside the given sources, so it is a parameter; an exception it raises is
an error value. -/
def worker_all_both_params {E D : Type}
    (combined_analysis : ℕ → ℕ → ℕ → ℚ → ℚ → ℕ → Except E D)
    (epsilon mu : ℚ) (n_runs n_nodes time_steps m_ba : ℕ) :
    Except E (ResultRecord D) :=
  match combined_analysis n_runs n_nodes time_steps epsilon mu m_ba with
  | .error e => .error e
  | .ok d => .ok ⟨d, epsilon, mu⟩

/-- Semantics of pool.starmap over a worker returning Except: the results
are collected in task order, and if any task raises, the whole call raises
one of the raised exceptions instead of returning a list (here, the first
in task order).  The pool size min(cpu_count, len(grid)) has no effect on
the returned value. -/
def starmapExcept {E A B : Type} (f : A → Except E B) :
    List A → Except E (List B)
  | [] => .ok []
  | a :: as =>
    match f a with
    | .error e => .error e
    | .ok b =>
      match starmapExcept f as with
      | .error e => .error e
      | .ok bs => .ok (b :: bs)

/-- multiprocess_all from multiprocessing.py: builds the
itertools.product grid of (epsilon, mu) points and starmaps the worker over
it. -/
def multiprocess_all {E D : Type}
    (combined_analysis : ℕ → ℕ → ℕ → ℚ → ℚ → ℕ → Except E D)
    (epsilon_values mu_values : List ℚ)
    (n_runs n_nodes time_steps m_ba : ℕ) : Except E (List (ResultRecord D)) :=
  starmapExcept
    (fun p => worker_all_both_params combined_analysis p.1 p.2
      n_runs n_nodes time_steps m_ba)
    (itertools_product epsilon_values mu_values)

/-- A concrete analysis collaborator that raises for exactly the parameter
point (1/2, 1/2) and returns 0 elsewhere, used to exercise the failure path
of the sweep. -/
def oneFailAnalysis : ℕ → ℕ → ℕ → ℚ → ℚ → ℕ → Except String ℚ :=
  fun _ _ _ epsilon mu _ =>
    if epsilon = 1/2 ∧ mu = 1/2 then .error "simulation failed" else .ok 0

/-- On the interval [-1,1] the classifier always returns a value. -/
theorem rho_isSome_of_mem {x : ℚ} (h0 : -1 ≤ x) (h1 : x ≤ 1) :
    ∃ r : ℤ, rho x = some r := by
  unfold rho
  split
  · rename_i h; exact absurd ⟨h0, h1⟩ h
  · split
    · exact ⟨-1, rfl⟩
    · split
      · exact ⟨0, rfl⟩
      · split
        · exact ⟨1, rfl⟩
        · rename_i h2 h3 h4
          exfalso
          rcases lt_or_le x (-(1/2)) with hc | hc
          · exact h2 ⟨h0, hc⟩
          · rcases le_or_lt x (1/2) with hd | hd
            · exact h3 ⟨hc, hd⟩
            · exact h4 ⟨hd, h1⟩

/-- The classifier is odd on its domain. -/
theorem rho_neg {x : ℚ} {r : ℤ} (h : rho x = some r) :
    rho (-x) = some (-r) := by
  unfold rho at h ⊢
  split at h
  · exact absurd h (by simp)
  · rename_i hdom
    push_neg at hdom
    have h0 : -1 ≤ x := hdom.1
    have h1 : x ≤ 1 := hdom.2
    split at h
    · rename_i hb
      obtain rfl : r = -1 := by injection h with h; omega
      have hnn : ¬ ¬ (-1 ≤ -x ∧ -x ≤ 1) := by
        push_neg; constructor <;> linarith [hb.1, hb.2]
      rw [if_neg hnn, if_neg (by push_neg; intro; linarith [hb.2]),
        if_neg (by push_neg; intro; linarith [hb.2]),
        if_pos ⟨by linarith [hb.2], by linarith [hb.1]⟩]
      norm_num
    · split at h
      · rename_i hb
        obtain rfl : r = 0 := by injection h with h; omega
        rw [if_neg (by push_neg; constructor <;> linarith [hb.1, hb.2]),
          if_neg (by push_neg; intro; linarith [hb.2]),
          if_pos ⟨by linarith [hb.2], by linarith [hb.1]⟩]
        norm_num
      · split at h
        · rename_i hb
          obtain rfl : r = 1 := by injection h with h; omega
          rw [if_neg (by push_neg; constructor <;> linarith [hb.1, hb.2]),
            if_pos ⟨by linarith, by linarith [hb.1]⟩]
        · exact absurd h (by simp)

/-- C4: rho is total on [-1,1], computing the stated three-way classifier,
and returns no value (a domain error) outside the closed interval [-1,1]. -/
theorem rho_piecewise_total :
    (∀ x : ℚ, -1 ≤ x → x < -(1/2) → rho x = some (-1)) ∧
    (∀ x : ℚ, -(1/2) ≤ x → x ≤ 1/2 → rho x = some 0) ∧
    (∀ x : ℚ, (1/2 : ℚ) < x → x ≤ 1 → rho x = some 1) ∧
    (∀ x : ℚ, x < -1 ∨ 1 < x → rho x = none) := by
  refine ⟨?_, ?_, ?_, ?_⟩
  · intro x ha hb
    unfold rho
    rw [if_neg (by push_neg; constructor <;> linarith), if_pos ⟨ha, hb⟩]
  · intro x ha hb
    unfold rho
    rw [if_neg (by push_neg; constructor <;> linarith),
      if_neg (by push_neg; intro; linarith), if_pos ⟨ha, hb⟩]
  · intro x ha hb
    unfold rho
    rw [if_neg (by push_neg; constructor <;> linarith),
      if_neg (by push_neg; intro; linarith),
      if_neg (by push_neg; intro; linarith), if_pos ⟨ha, hb⟩]
  · intro x hx
    unfold rho
    rw [if_pos]
    intro ⟨h0, h1⟩
    rcases hx with h | h <;> linarith

/-- C4 witness: the classifier evaluated at one point of each region. -/
theorem rho_piecewise_total_witness :
    rho (-(7/10)) = some (-1) ∧ rho 0 = some 0 ∧
    rho (9/10) = some 1 ∧ rho 2 = none :=
  ⟨rho_piecewise_total.1 _ (by norm_num) (by norm_num),
   rho_piecewise_total.2.1 _ (by norm_num) (by norm_num),
   rho_piecewise_total.2.2.1 _ (by norm_num) (by norm_num),
   rho_piecewise_total.2.2.2 _ (Or.inr (by norm_num))⟩

/-- Lower bound of the clamp. -/
theorem clamp01_nonneg (x : ℚ) : 0 ≤ clamp01 x := le_max_left 0 _

/-- Upper bound of the clamp. -/
theorem clamp01_le_one (x : ℚ) : clamp01 x ≤ 1 :=
  max_le (by norm_num) (min_le_left 1 x)

/-- C3: for opinions i, j in [0,1] and mu, epsilon in [0,1] the adjustment
rule returns a pair whose components both lie in [0,1]: the assimilation
branch returns the convex updates unclamped, the repulsion branch returns
clamped values. -/
theorem UCM_adjust_opinion_bounded (i j mu epsilon : ℚ)
    (hi0 : 0 ≤ i) (hi1 : i ≤ 1) (hj0 : 0 ≤ j) (hj1 : j ≤ 1)
    (hm0 : 0 ≤ mu) (hm1 : mu ≤ 1) (he0 : 0 ≤ epsilon) (he1 : epsilon ≤ 1) :
    ∃ p : ℚ × ℚ, UCM_adjust_opinion i j mu epsilon = some p ∧
      0 ≤ p.1 ∧ p.1 ≤ 1 ∧ 0 ≤ p.2 ∧ p.2 ≤ 1 := by
  obtain ⟨r, hr⟩ := rho_isSome_of_mem (x := i - j) (by linarith) (by linarith)
  obtain ⟨r2, hr2⟩ := rho_isSome_of_mem (x := j - i) (by linarith) (by linarith)
  have hgi : ¬ ¬ (0 ≤ i ∧ i ≤ 1) := not_not_intro ⟨hi0, hi1⟩
  have hgj : ¬ ¬ (0 ≤ j ∧ j ≤ 1) := not_not_intro ⟨hj0, hj1⟩
  by_cases habs : |i - j - (r : ℚ)| < epsilon
  · refine ⟨(i + mu * (j - i), j + mu * (i - j)), ?_, ?_, ?_, ?_, ?_⟩
    · simp only [UCM_adjust_opinion, hr, if_neg hgi, if_neg hgj, if_pos habs]
    · dsimp only
      nlinarith [mul_nonneg (sub_nonneg.mpr hm1) hi0, mul_nonneg hm0 hj0]
    · dsimp only
      nlinarith [mul_nonneg (sub_nonneg.mpr hm1) (sub_nonneg.mpr hi1),
        mul_nonneg hm0 (sub_nonneg.mpr hj1)]
    · dsimp only
      nlinarith [mul_nonneg (sub_nonneg.mpr hm1) hj0, mul_nonneg hm0 hi0]
    · dsimp only
      nlinarith [mul_nonneg (sub_nonneg.mpr hm1) (sub_nonneg.mpr hj1),
        mul_nonneg hm0 (sub_nonneg.mpr hi1)]
  · refine ⟨(clamp01 (i - mu * ((j - i) - (r2 : ℚ))),
      clamp01 (j - mu * (i - j - (r : ℚ)))), ?_, clamp01_nonneg _,
      clamp01_le_one _, clamp01_nonneg _, clamp01_le_one _⟩
    simp only [UCM_adjust_opinion, hr, hr2, if_neg hgi, if_neg hgj,
      if_neg habs]

/-- C3 witness: the bounds theorem instantiated at i = 1, j = 0, mu = 1,
epsilon = 1. -/
theorem UCM_adjust_opinion_bounded_witness :
    ∃ p : ℚ × ℚ, UCM_adjust_opinion 1 0 1 1 = some p ∧
      0 ≤ p.1 ∧ p.1 ≤ 1 ∧ 0 ≤ p.2 ∧ p.2 ≤ 1 :=
  UCM_adjust_opinion_bounded 1 0 1 1 (by norm_num) (by norm_num)
    (by norm_num) (by norm_num) (by norm_num) (by norm_num) (by norm_num)
    (by norm_num)

/-- C6: when the assimilation branch applies to (i, j), adjusting the
swapped arguments (j, i) yields exactly the swapped result pair. -/
theorem UCM_adjust_opinion_assimilation_swap (i j mu epsilon : ℚ) (r : ℤ)
    (hi0 : 0 ≤ i) (hi1 : i ≤ 1) (hj0 : 0 ≤ j) (hj1 : j ≤ 1)
    (hr : rho (i - j) = some r) (hclose : |i - j - (r : ℚ)| < epsilon) :
    UCM_adjust_opinion j i mu epsilon =
      (UCM_adjust_opinion i j mu epsilon).map Prod.swap := by
  have hr2 : rho (j - i) = some (-r) := by
    have h := rho_neg hr
    rwa [neg_sub] at h
  have hclose2 : |j - i - ((-r : ℤ) : ℚ)| < epsilon := by
    have he : j - i - ((-r : ℤ) : ℚ) = -(i - j - (r : ℚ)) := by
      push_cast; ring
    rw [he, abs_neg]; exact hclose
  have hgi : ¬ ¬ (0 ≤ i ∧ i ≤ 1) := not_not_intro ⟨hi0, hi1⟩
  have hgj : ¬ ¬ (0 ≤ j ∧ j ≤ 1) := not_not_intro ⟨hj0, hj1⟩
  simp only [UCM_adjust_opinion, hr, hr2, if_neg hgi, if_neg hgj,
    if_pos hclose, if_pos hclose2]
  rfl

/-- C6 witness: the swap theorem instantiated at i = 3/10, j = 2/10,
mu = 1/2, epsilon = 1/2, where the classifier gives 0 and the branch
condition 1/10 < 1/2 holds. -/
theorem UCM_adjust_opinion_assimilation_swap_witness :
    UCM_adjust_opinion (2/10) (3/10) (1/2) (1/2) =
      (UCM_adjust_opinion (3/10) (2/10) (1/2) (1/2)).map Prod.swap :=
  UCM_adjust_opinion_assimilation_swap (3/10) (2/10) (1/2) (1/2) 0
    (by norm_num) (by norm_num) (by norm_num) (by norm_num)
    (by norm_num [rho]) (by norm_num [abs_lt])

/-- C5: on i = 0.1, j = 0.9, mu = 0.5, epsilon = 0.3 the rule takes the
assimilation branch (rho(-0.8) = -1, periodic distance 0.2 < 0.3) and
returns exactly (0.5, 0.5); the engine rewire condition |0.5 - 0.5| > 0.3
is false, so processing node 0 of the spec scenario graph only writes the
two opinions and leaves the edges untouched. -/
theorem UCM_concrete_scenario :
    rho ((1:ℚ)/10 - 9/10) = some (-1) ∧
    |((1:ℚ)/10 - 9/10) - ((-1 : ℤ) : ℚ)| < 3/10 ∧
    UCM_adjust_opinion (1/10) (9/10) (1/2) (3/10) = some (1/2, 1/2) ∧
    ¬ (|(1:ℚ)/2 - 1/2| > 3/10) ∧
    processNode (1/2) (3/10) pathGraph4 ⟨0, 0, []⟩ =
      some (set_opinion (set_opinion pathGraph4 0 (1/2)) 1 (1/2)) := by
  have hrho : rho ((1:ℚ)/10 - 9/10) = some (-1) := by norm_num [rho]
  have hrho4 : rho (-(4/5) : ℚ) = some (-1) := by norm_num [rho]
  have hU : UCM_adjust_opinion (1/10) (9/10) (1/2) (3/10) =
      some (1/2, 1/2) := by
    simp only [UCM_adjust_opinion]
    norm_num [hrho4, abs_lt]
  have hnb : neighborList pathGraph4 0 = [1] := by with_unfolding_all decide
  have hop0 : pathGraph4.opinions 0 = 1/10 := rfl
  have hop1 : pathGraph4.opinions 1 = 9/10 := rfl
  refine ⟨hrho, by norm_num [abs_lt], hU, by norm_num, ?_⟩
  simp only [processNode, hnb, List.length_cons, List.length_nil,
    Nat.zero_mod, List.getElem?_cons_zero, hop0, hop1, hU]
  norm_num

/-- C2, code evaluated at the failing input: the validation asserts of
run_sim accept the non-integer node count N = 2.5 and run_sim proceeds past
validation, because the Python condition N > 1 & isinstance(N, int) parses
as N > (1 & isinstance(N, int)), which for a float N is just N > 0.  The
in-range checks on mu and epsilon and the rejection of the integer N = 1
do behave as specified. -/
theorem run_sim_validation_accepts_float_N :
    (PyNum.float (5/2)).isInt = false ∧
    runSimValidation (PyNum.float (5/2)) (PyNum.int 10) (1/2) (1/2) = true ∧
    run_sim (PyNum.float (5/2)) (PyNum.int 10) (1/2) (1/2) pathGraph4 [] =
      some (pathGraph4, pathGraph4) ∧
    runSimValidation (PyNum.int 1) (PyNum.int 10) (1/2) (1/2) = false ∧
    runSimValidation (PyNum.int 10) (PyNum.int 10) 2 (1/2) = false := by
  refine ⟨rfl, by with_unfolding_all rfl, ?_, by with_unfolding_all rfl,
    by with_unfolding_all rfl⟩
  with_unfolding_all rfl

/-- The itertools cross product coincides with the library cross product. -/
theorem itertools_product_eq_product {α β : Type} (xs : List α)
    (ys : List β) : itertools_product xs ys = xs ×ˢ ys := rfl

/-- Starmap over a grid on which every task succeeds returns the list of
results in task order; any key function that inverts the worker recovers
the grid from the results. -/
theorem starmapExcept_ok_of_forall_ok {E A B : Type} (f : A → Except E B)
    (k : B → A) (hk : ∀ a b, f a = .ok b → k b = a) :
    ∀ l : List A, (∀ a ∈ l, ∃ b, f a = .ok b) →
      ∃ ys : List B, starmapExcept f l = .ok ys ∧ ys.map k = l := by
  intro l
  induction l with
  | nil => intro _; exact ⟨[], rfl, rfl⟩
  | cons a as ih =>
    intro h
    obtain ⟨b, hb⟩ := h a (List.mem_cons_self a as)
    obtain ⟨ys, hys, hmap⟩ := ih (fun x hx => h x (List.mem_cons_of_mem a hx))
    refine ⟨b :: ys, ?_, ?_⟩
    · simp only [starmapExcept, hb, hys]
    · simp [hmap, hk a b hb]

/-- If any task of the grid fails, starmap raises instead of returning a
list. -/
theorem starmapExcept_error_of_exists_error {E A B : Type}
    (f : A → Except E B) :
    ∀ l : List A, (∃ a ∈ l, ∃ e, f a = .error e) →
      ∃ e, starmapExcept f l = .error e := by
  intro l
  induction l with
  | nil => rintro ⟨a, ha, _⟩; exact absurd ha (List.not_mem_nil a)
  | cons a as ih =>
    rintro ⟨x, hx, e, he⟩
    rcases List.mem_cons.mp hx with rfl | hx
    · exact ⟨e, by simp only [starmapExcept, he]⟩
    · cases hfa : f a with
      | error e2 => exact ⟨e2, by simp only [starmapExcept, hfa]⟩
      | ok b =>
        obtain ⟨e3, he3⟩ := ih ⟨x, hx, e, he⟩
        exact ⟨e3, by simp only [starmapExcept, hfa, he3]⟩

/-- C7: when every parameter point's analysis succeeds, multiprocess_all
returns exactly one record per (epsilon, mu) point of the itertools cross
product, in grid order, each record stamped with its own epsilon and mu
keys; the number of records is the product of the two list lengths, and for
duplicate-free input lists the keys are pairwise distinct, so no pair is
missing and none is duplicated. -/
theorem multiprocess_all_complete_grid {E D : Type}
    (ca : ℕ → ℕ → ℕ → ℚ → ℚ → ℕ → Except E D)
    (epsilon_values mu_values : List ℚ) (n_runs n_nodes time_steps m_ba : ℕ)
    (hne : epsilon_values ≠ []) (hnm : mu_values ≠ [])
    (hok : ∀ p ∈ itertools_product epsilon_values mu_values,
      ∃ d, ca n_runs n_nodes time_steps p.1 p.2 m_ba = .ok d) :
    ∃ l, multiprocess_all ca epsilon_values mu_values n_runs n_nodes
        time_steps m_ba = .ok l ∧
      l.map (fun t => (t.epsilon, t.mu)) =
        itertools_product epsilon_values mu_values ∧
      l.length = epsilon_values.length * mu_values.length ∧
      (epsilon_values.Nodup → mu_values.Nodup →
        (l.map (fun t => (t.epsilon, t.mu))).Nodup) := by
  have hk : ∀ (p : ℚ × ℚ) (t : ResultRecord D),
      worker_all_both_params ca p.1 p.2 n_runs n_nodes time_steps m_ba =
        .ok t → (t.epsilon, t.mu) = p := by
    intro p t ht
    unfold worker_all_both_params at ht
    cases hca : ca n_runs n_nodes time_steps p.1 p.2 m_ba with
    | error e => rw [hca] at ht; exact absurd ht (by simp)
    | ok d =>
      rw [hca] at ht
      injection ht with ht
      subst ht
      rfl
  have hok2 : ∀ p ∈ itertools_product epsilon_values mu_values,
      ∃ t, worker_all_both_params ca p.1 p.2 n_runs n_nodes time_steps
        m_ba = .ok t := by
    intro p hp
    obtain ⟨d, hd⟩ := hok p hp
    exact ⟨⟨d, p.1, p.2⟩, by simp only [worker_all_both_params, hd]⟩
  obtain ⟨ys, hys, hmap⟩ := starmapExcept_ok_of_forall_ok
    (fun p => worker_all_both_params ca p.1 p.2 n_runs n_nodes time_steps
      m_ba)
    (fun t => (t.epsilon, t.mu)) (fun p t => hk p t) _ hok2
  refine ⟨ys, hys, hmap, ?_, ?_⟩
  · have hlen := congrArg List.length hmap
    rw [List.length_map] at hlen
    rw [hlen, itertools_product_eq_product, List.length_product]
  · intro hd1 hd2
    rw [hmap, itertools_product_eq_product]
    exact List.Nodup.product hd1 hd2

/-- C7 witness: the theorem instantiated at an everywhere-successful
analysis on the grid [0, 1/2] x [0, 1/2] with one run per point gives the
2 x 2 result keyed by exactly those four pairs. -/
theorem multiprocess_all_complete_grid_witness :
    ∃ l, multiprocess_all (fun _ _ _ _ _ _ => (Except.ok 0 : Except String ℚ))
        [0, 1/2] [0, 1/2] 1 100 100 2 = .ok l ∧
      l.map (fun t => (t.epsilon, t.mu)) =
        itertools_product [0, 1/2] [0, 1/2] ∧
      l.length = List.length [(0:ℚ), 1/2] * List.length [(0:ℚ), 1/2] ∧
      (List.Nodup [(0:ℚ), 1/2] → List.Nodup [(0:ℚ), 1/2] →
        (l.map (fun t => (t.epsilon, t.mu))).Nodup) :=
  multiprocess_all_complete_grid _ [0, 1/2] [0, 1/2] 1 100 100 2
    (by simp) (by simp) (fun p _ => ⟨0, rfl⟩)

/-- C1, counterexample to the claim as stated: with an analysis collaborator
raising at exactly one of the four parameter points of the grid
[0, 1/2] x [0, 1/2], multiprocess_all does not return results for the other
three points: the starmapped pool call re-raises the worker exception and
the whole sweep yields an error value, not a list. -/
theorem multiprocess_all_one_failure_counterexample :
    (itertools_product [(0:ℚ), 1/2] [(0:ℚ), 1/2]).countP
        (fun p => failed (oneFailAnalysis 1 100 100 p.1 p.2 2)) = 1 ∧
    multiprocess_all oneFailAnalysis [0, 1/2] [0, 1/2] 1 100 100 2 =
      .error "simulation failed" := by
  constructor
  · with_unfolding_all rfl
  · with_unfolding_all rfl

/-- C1 amended: if the analysis raises at any parameter point of the grid,
multiprocess_all raises instead of returning any per-point results. -/
theorem multiprocess_all_failure_aborts_sweep {E D : Type}
    (ca : ℕ → ℕ → ℕ → ℚ → ℚ → ℕ → Except E D)
    (epsilon_values mu_values : List ℚ)
    (n_runs n_nodes time_steps m_ba : ℕ)
    (hfail : ∃ p ∈ itertools_product epsilon_values mu_values,
      ∃ e, ca n_runs n_nodes time_steps p.1 p.2 m_ba = .error e) :
    ∃ e, multiprocess_all ca epsilon_values mu_values n_runs n_nodes
      time_steps m_ba = .error e := by
  obtain ⟨p, hp, e, he⟩ := hfail
  exact starmapExcept_error_of_exists_error _ _
    ⟨p, hp, e, by simp only [worker_all_both_params, he]⟩

/-- C1 amended witness: the aborting sweep at the concrete one-failure
grid. -/
theorem multiprocess_all_failure_aborts_sweep_witness :
    ∃ e, multiprocess_all oneFailAnalysis [0, 1/2] [0, 1/2] 1 100 100 2 =
      .error e :=
  multiprocess_all_failure_aborts_sweep oneFailAnalysis [0, 1/2] [0, 1/2]
    1 100 100 2
    ⟨(1/2, 1/2), by with_unfolding_all decide,
      "simulation failed", by with_unfolding_all rfl⟩

/-- Membership in the neighbor list means membership in the node set plus
an edge to the queried node. -/
theorem mem_neighborList {g : SimGraph} {u v : ℕ}
    (h : v ∈ neighborList g u) : v ∈ g.nodes ∧ edgeKey u v ∈ g.edges := by
  unfold neighborList at h
  rw [Finset.mem_sort] at h
  exact Finset.mem_filter.mp h

/-- The normalized edge key is one of the two orientations. -/
theorem edgeKey_cases (u v : ℕ) :
    edgeKey u v = (u, v) ∨ edgeKey u v = (v, u) := by
  unfold edgeKey
  split
  · exact Or.inl rfl
  · exact Or.inr rfl

/-- Membership in the canonical node list is membership in the node set. -/
theorem mem_nodeList {g : SimGraph} {w : ℕ} (h : w ∈ nodeList g) :
    w ∈ g.nodes := by
  unfold nodeList at h
  exact (Finset.mem_sort _).mp h

/-- Whatever the rewiring loop returns comes from the choice list and
differs from the node, by construction of the redraw loop. -/
theorem pickNewNeighbor_spec {l : List ℕ} {node w : ℕ} :
    ∀ tape, pickNewNeighbor l node tape = some w → w ∈ l ∧ w ≠ node := by
  intro tape
  induction tape with
  | nil => intro h; exact absurd h (by simp [pickNewNeighbor])
  | cons k rest ih =>
    intro h
    unfold pickNewNeighbor at h
    split at h
    · exact absurd h (by simp)
    · rename_i x hg
      split at h
      · exact ih h
      · rename_i hx
        injection h with h
        subst h
        obtain ⟨hlt, rfl⟩ := List.getElem?_eq_some_iff.mp hg
        exact ⟨List.getElem_mem hlt, hx⟩

/-- Anatomy of one node-processing step: it leaves the graph unchanged
(no neighbors), or writes the two adjusted opinions, or additionally
rewires the chosen edge to a node w drawn from the node set with
w different from the processed node. -/
theorem processNode_cases (mu epsilon : ℚ) (g g2 : SimGraph) (ev : NodeEvent)
    (h : processNode mu epsilon g ev = some g2) :
    g2 = g ∨
    ∃ nb i2 j2, nb ∈ neighborList g ev.node ∧
      (g2 = set_opinion (set_opinion g ev.node i2) nb j2 ∨
       ∃ w, w ∈ g.nodes ∧ w ≠ ev.node ∧
         g2 = add_edge
           (remove_edge (set_opinion (set_opinion g ev.node i2) nb j2)
             ev.node nb) ev.node w) := by
  simp only [processNode] at h
  split at h
  · rename_i hnone
    injection h with h
    exact Or.inl h.symm
  · rename_i nb hnb
    have hnbmem : nb ∈ neighborList g ev.node := by
      obtain ⟨hlt, rfl⟩ := List.getElem?_eq_some_iff.mp hnb
      exact List.getElem_mem hlt
    split at h
    · exact absurd h (by simp)
    · rename_i pair i2 j2 hU
      split at h
      · split at h
        · exact absurd h (by simp)
        · rename_i w hw
          injection h with h
          refine Or.inr ⟨nb, i2, j2, hnbmem, Or.inr ⟨w, ?_, ?_, h.symm⟩⟩
          · exact mem_nodeList (pickNewNeighbor_spec ev.tape hw).1
          · exact (pickNewNeighbor_spec ev.tape hw).2
      · injection h with h
        exact Or.inr ⟨nb, i2, j2, hnbmem, Or.inl h.symm⟩

/-- One step preserves the node set and the edge invariant. -/
theorem processNode_invariant (mu epsilon : ℚ) (g g2 : SimGraph)
    (ev : NodeEvent) (h : processNode mu epsilon g ev = some g2)
    (hg : goodEdges g) : g2.nodes = g.nodes ∧ goodEdges g2 := by
  rcases processNode_cases mu epsilon g g2 ev h with rfl | ⟨nb, i2, j2, hnb, hcase⟩
  · exact ⟨rfl, hg⟩
  · obtain ⟨hnbn, hek⟩ := mem_neighborList hnb
    have hinfo := hg _ hek
    have hunode : ev.node ∈ g.nodes ∧ ev.node ≠ nb := by
      rcases edgeKey_cases ev.node nb with hc | hc <;> rw [hc] at hinfo
      · exact ⟨hinfo.1, hinfo.2.2⟩
      · exact ⟨hinfo.2.1, fun hq => hinfo.2.2 hq.symm⟩
    rcases hcase with rfl | ⟨w, hwmem, hwne, rfl⟩
    · exact ⟨rfl, hg⟩
    · have hnn : (add_edge
          (remove_edge (set_opinion (set_opinion g ev.node i2) nb j2)
            ev.node nb) ev.node w).nodes = g.nodes := by
        show insert ev.node (insert w g.nodes) = g.nodes
        rw [Finset.insert_eq_self.mpr hwmem,
          Finset.insert_eq_self.mpr hunode.1]
      refine ⟨hnn, ?_⟩
      intro e he
      rw [hnn]
      rcases Finset.mem_insert.mp he with rfl | he2
      · rcases edgeKey_cases ev.node w with hc | hc <;> rw [hc]
        · exact ⟨hunode.1, hwmem, fun hq => hwne hq.symm⟩
        · exact ⟨hwmem, hunode.1, hwne⟩
      · exact hg _ (Finset.mem_of_mem_erase he2)

/-- One step never increases the number of edges. -/
theorem processNode_card_le (mu epsilon : ℚ) (g g2 : SimGraph)
    (ev : NodeEvent) (h : processNode mu epsilon g ev = some g2) :
    g2.edges.card ≤ g.edges.card := by
  rcases processNode_cases mu epsilon g g2 ev h with rfl | ⟨nb, i2, j2, hnb, hcase⟩
  · exact le_refl _
  · obtain ⟨hnbn, hek⟩ := mem_neighborList hnb
    rcases hcase with rfl | ⟨w, hwmem, hwne, rfl⟩
    · exact le_refl _
    · show (insert (edgeKey ev.node w)
        (g.edges.erase (edgeKey ev.node nb))).card ≤ g.edges.card
      have hpos : 0 < g.edges.card := Finset.card_pos.mpr ⟨_, hek⟩
      calc (insert (edgeKey ev.node w)
            (g.edges.erase (edgeKey ev.node nb))).card
          ≤ (g.edges.erase (edgeKey ev.node nb)).card + 1 :=
            Finset.card_insert_le _ _
        _ = g.edges.card - 1 + 1 := by rw [Finset.card_erase_of_mem hek]
        _ ≤ g.edges.card := by omega

/-- The sweep fold preserves the node set and the edge invariant and never
increases the edge count. -/
theorem run_sweeps_invariant (mu epsilon : ℚ) :
    ∀ (evs : List NodeEvent) (g g2 : SimGraph),
      run_sweeps mu epsilon g evs = some g2 → goodEdges g →
      (g2.nodes = g.nodes ∧ goodEdges g2) ∧
        g2.edges.card ≤ g.edges.card := by
  intro evs
  induction evs with
  | nil =>
    intro g g2 h hg
    obtain rfl : g = g2 := by injection h
    exact ⟨⟨rfl, hg⟩, le_refl _⟩
  | cons a as ih =>
    intro g g2 h hg
    unfold run_sweeps at h
    rw [List.foldlM_cons] at h
    cases hstep : processNode mu epsilon g a with
    | none => rw [hstep] at h; exact absurd h (by simp)
    | some g1 =>
      rw [hstep] at h
      simp only [Option.bind_eq_bind, Option.some_bind] at h
      obtain ⟨hn1, hg1⟩ := processNode_invariant mu epsilon g g1 a hstep hg
      obtain ⟨⟨hn2, hg2⟩, hc2⟩ := ih g1 g2 h hg1
      refine ⟨⟨by rw [hn2, hn1], hg2⟩, ?_⟩
      exact le_trans hc2 (processNode_card_le mu epsilon g g1 a hstep)

/-- A successful run_sim call means validation passed, the sweeps succeeded
on the working graph, and the snapshot component is the initial graph. -/
theorem run_sim_elim {N T : PyNum} {epsilon mu : ℚ} {g0 : SimGraph}
    {evs : List NodeEvent} {gfin gi : SimGraph}
    (h : run_sim N T epsilon mu g0 evs = some (gfin, gi)) :
    run_sweeps mu epsilon g0 evs = some gfin ∧ gi = g0 := by
  unfold run_sim at h
  split at h
  · cases hsw : run_sweeps mu epsilon g0 evs with
    | none => rw [hsw] at h; exact absurd h (by simp)
    | some g2 =>
      rw [hsw] at h
      injection h with h
      simp only [Prod.mk.injEq] at h
      obtain ⟨h1, h2⟩ := h
      subst h1
      subst h2
      exact ⟨rfl, rfl⟩
  · exact absurd h (by simp)

/-- C8: the snapshot returned as second component of every valid run equals
the graph immediately after initialization: same node ids, same edges, same
per-node opinions; none of the opinion writes, edge removals or edge
additions performed during the sweeps affects it, since they only thread
the working copy. -/
theorem run_sim_snapshot_immutable (N T : PyNum) (epsilon mu : ℚ)
    (g0 : SimGraph) (evs : List NodeEvent) (gfin gi : SimGraph)
    (hrun : run_sim N T epsilon mu g0 evs = some (gfin, gi)) :
    gi = g0 ∧ gi.nodes = g0.nodes ∧ gi.edges = g0.edges ∧
      ∀ u, gi.opinions u = g0.opinions u := by
  obtain ⟨-, rfl⟩ := run_sim_elim hrun
  exact ⟨rfl, rfl, rfl, fun u => rfl⟩

/-- C8 witness: the snapshot theorem applied to a concrete run that rewires
an edge of the scenario graph. -/
theorem run_sim_snapshot_immutable_witness :
    pathGraph4 = pathGraph4 ∧ pathGraph4.nodes = pathGraph4.nodes ∧
      pathGraph4.edges = pathGraph4.edges ∧
      ∀ u, pathGraph4.opinions u = pathGraph4.opinions u :=
  run_sim_snapshot_immutable (.int 4) (.int 10) (1/10) 0 pathGraph4
    [⟨0, 0, [0, 2]⟩] rewiredGraph pathGraph4 (by with_unfolding_all rfl)

/-- C9: across every valid run the node-id set is invariant (the final
graph keeps exactly the n nodes created at initialization; rewiring touches
edges only), and every edge of the final graph joins two distinct in-range
node ids; in particular no rewire creates a self-loop, the new endpoint
being redrawn until it differs from the processed node. -/
theorem run_sim_nodes_invariant (N T : PyNum) (epsilon mu : ℚ) (n : ℕ)
    (g0 : SimGraph) (evs : List NodeEvent) (gfin gi : SimGraph)
    (hnodes : g0.nodes = Finset.range n) (hgood : goodEdges g0)
    (hrun : run_sim N T epsilon mu g0 evs = some (gfin, gi)) :
    gfin.nodes = Finset.range n ∧
      ∀ e ∈ gfin.edges, e.1 ∈ Finset.range n ∧ e.2 ∈ Finset.range n ∧
        e.1 ≠ e.2 := by
  obtain ⟨hsw, rfl⟩ := run_sim_elim hrun
  obtain ⟨⟨hn, hg⟩, -⟩ := run_sweeps_invariant mu epsilon evs _ gfin hsw hgood
  have hfin : gfin.nodes = Finset.range n := by rw [hn, hnodes]
  refine ⟨hfin, fun e he => ?_⟩
  obtain ⟨h1, h2, h3⟩ := hg e he
  exact ⟨hfin ▸ h1, hfin ▸ h2, h3⟩

/-- C9 witness: the invariant theorem applied to the concrete rewiring run
on the scenario graph. -/
theorem run_sim_nodes_invariant_witness :
    rewiredGraph.nodes = Finset.range 4 ∧
      ∀ e ∈ rewiredGraph.edges, e.1 ∈ Finset.range 4 ∧
        e.2 ∈ Finset.range 4 ∧ e.1 ≠ e.2 :=
  run_sim_nodes_invariant (.int 4) (.int 10) (1/10) 0 4 pathGraph4
    [⟨0, 0, [0, 2]⟩] rewiredGraph pathGraph4 rfl
    (by unfold goodEdges; with_unfolding_all decide) (by with_unfolding_all rfl)

/-- C10: each rewire removes the present edge (node, neighbor) and inserts
the single edge (node, w), so the edge count drops by one exactly when
(node, w) is already present after the removal (in particular re-adding the
just-removed neighbor is a net no-op) and stays equal otherwise; and over
every valid run the edge count never increases, so the final graph has at
most as many edges as the initial snapshot. -/
theorem run_sim_edge_count_non_increasing :
    (∀ (g1 : SimGraph) (node neighbor w : ℕ),
      edgeKey node neighbor ∈ g1.edges →
      (add_edge (remove_edge g1 node neighbor) node w).edges.card =
        if edgeKey node w ∈ g1.edges.erase (edgeKey node neighbor)
        then g1.edges.card - 1 else g1.edges.card) ∧
    (∀ (N T : PyNum) (epsilon mu : ℚ) (g0 : SimGraph)
      (evs : List NodeEvent) (gfin gi : SimGraph),
      goodEdges g0 → run_sim N T epsilon mu g0 evs = some (gfin, gi) →
      gfin.edges.card ≤ gi.edges.card) := by
  constructor
  · intro g1 node nb w hmem
    show (insert (edgeKey node w) (g1.edges.erase (edgeKey node nb))).card =
      if edgeKey node w ∈ g1.edges.erase (edgeKey node nb)
      then g1.edges.card - 1 else g1.edges.card
    have hpos : 0 < g1.edges.card := Finset.card_pos.mpr ⟨_, hmem⟩
    by_cases hw : edgeKey node w ∈ g1.edges.erase (edgeKey node nb)
    · rw [if_pos hw, Finset.card_insert_of_mem hw,
        Finset.card_erase_of_mem hmem]
    · rw [if_neg hw, Finset.card_insert_of_not_mem hw,
        Finset.card_erase_of_mem hmem]
      omega
  · intro N T epsilon mu g0 evs gfin gi hgood hrun
    obtain ⟨hsw, rfl⟩ := run_sim_elim hrun
    exact (run_sweeps_invariant mu epsilon evs _ gfin hsw hgood).2

/-- C10 witness: the count identity at the concrete rewire of the scenario
run (a removal of (0,1) and an insertion of the absent (0,2), leaving the
count at 3), and the run-level bound for that same run. -/
theorem run_sim_edge_count_non_increasing_witness :
    ((add_edge (remove_edge pathGraph4 0 1) 0 2).edges.card =
      if edgeKey 0 2 ∈ pathGraph4.edges.erase (edgeKey 0 1)
      then pathGraph4.edges.card - 1 else pathGraph4.edges.card) ∧
    rewiredGraph.edges.card ≤ pathGraph4.edges.card :=
  ⟨run_sim_edge_count_non_increasing.1 pathGraph4 0 1 2
    (by with_unfolding_all decide),
   run_sim_edge_count_non_increasing.2 (.int 4) (.int 10) (1/10) 0
    pathGraph4 [⟨0, 0, [0, 2]⟩] rewiredGraph pathGraph4
    (by unfold goodEdges; with_unfolding_all decide) (by with_unfolding_all rfl)⟩

end Opynions
